import Mathlib

/-
  Verification of the workflow-update script (src/script.py, src/verify.py).

  The script scans repositories, looks for a fixed workflow directory, lists the
  files below it, and performs a literal Python `str.replace` of a fixed search
  literal by a fixed replacement literal, writing the result back through the
  platform's content-update endpoint.

  The embedding below models the pure computational content of the script:
  strings are `List Char`, the REST API is an environment of `Except`-valued
  inputs, side effects (content writes, ref creation, pull requests) are an
  explicit `Action` trace, and the logger is abstracted to a trace of levels.
-/

namespace Script

/-! ### Configuration constants (script.py lines 12-16) -/

def ORG_NAME : String := "lahteeph"

def WORKFLOW_PATH : String := "ansible_aws/default"

def SEARCH_STRING : String := "aws-actions/amazon-ecs-deploy-task-definition@v1"

def REPLACE_STRING : String := "aws-actions/amazon-ecs-deploy-task-definition@v2"

/-- script.py line 16: `CREATE_PR = False  # Set to False for direct commits`.
The flag is declared but never read anywhere else in the script. -/
def CREATE_PR : Bool := false

/-! ### Python string primitives

`containsSub pat s` models the Python expression `pat in s` (substring test) and
`replaceAllAux pat rep s` models `s.replace(pat, rep)` for a nonempty `pat`:
the leftmost occurrence is replaced first, scanning resumes after the inserted
replacement, occurrences never overlap.  The only patterns the script uses are
the nonempty literals above. -/

def containsSub (pat : List Char) : List Char → Bool
  | [] => pat.isEmpty
  | c :: rest => pat.isPrefixOf (c :: rest) || containsSub pat rest

def replaceAllAux (pat rep : List Char) : List Char → List Char
  | [] => []
  | c :: rest =>
    if pat.isPrefixOf (c :: rest) then
      rep ++ replaceAllAux pat rep (rest.drop (pat.length - 1))
    else
      c :: replaceAllAux pat rep rest
termination_by l => l.length
decreasing_by
  · simp only [List.length_drop, List.length_cons]
    omega
  · simp

/-- Python `s.strip(c)`: remove every leading and trailing occurrence of `c`. -/
def pyStrip (c : Char) (s : List Char) : List Char :=
  ((s.dropWhile (fun x => x == c)).reverse.dropWhile (fun x => x == c)).reverse

/-- `WORKFLOW_PATH.strip('/')` as computed on script.py line 83. -/
def WORKFLOW_PATH_STRIPPED : String := ⟨pyStrip '/' WORKFLOW_PATH.data⟩

/-- Commit message built on script.py line 136. -/
def commitMessage : String :=
  "Update ECS task definition from " ++ SEARCH_STRING ++ " to " ++ REPLACE_STRING

/-! ### API environment and effect model

API calls that can fail are modelled as `Except ApiError` inputs.  A
`GithubException` carries an HTTP status (script.py matches on `e.status`);
`ApiError.other` stands for any non-`GithubException` exception, which the
script catches separately.  The logger is abstracted to the trace of levels
emitted; message texts are irrelevant to the claims.  Mutating API calls are
recorded as an `Action` trace: the script only ever calls `update_file`, but
the constructors for ref creation and pull-request creation are part of the
vocabulary so that their absence from every trace is expressible. -/

inductive ApiError
  | github (status : Nat)
  | other
deriving DecidableEq

inductive LogLevel
  | info
  | warning
  | error
deriving DecidableEq

inductive Action
  | updateFile (path : String) (message : String) (content : List Char)
      (sha : String) (branch : String)
  | createRef (ref : String) (sha : String)
  | createPull (title : String) (head : String) (base : String)
deriving DecidableEq

/-- One entry of a `repo.get_contents` listing.  `decodedContent` is
`some text` when `decoded_content.decode('utf-8')` succeeds on that entry and
`none` when decoding raises (the surrounding `except` then logs and skips). -/
structure ContentEntry where
  type : String
  path : String
  sha : String
  decodedContent : Option (List Char)
deriving DecidableEq

/-- The repository attributes used by `get_organization_repositories`:
`full_name` (dedup key) and the `permissions.admin` flag. -/
structure Repo where
  full_name : String
  admin : Bool
deriving DecidableEq

/-! ### verify.py / script.py startup (script.py lines 11-22)

`GITHUB_TOKEN = os.getenv("GITHUB_TOKEN")` yields `none` when the variable is
absent; `if not GITHUB_TOKEN: raise ValueError(...)` fires when the variable is
absent or bound to the empty string (both are falsy).  The check precedes the
construction of the API client and every API call, so a failing startup
performs no network action. -/

def script_startup (env : Option String) : Except String String :=
  match env with
  | none => .error "GITHUB_TOKEN is not set in the environment."
  | some t =>
    if t = "" then .error "GITHUB_TOKEN is not set in the environment."
    else .ok t

/-! ### get_organization_repositories (script.py lines 35-61)

The inner `try` catches only `GithubException` from the organization lookup
(logged as a warning, the organization contributes nothing); a
non-`GithubException` failure there, or any failure of the user-repository
listing, propagates to the outer `try`, which logs an error and returns `[]`.
Deduplication is the dict comprehension `{repo.full_name: repo ...}.values()`:
first-insertion key order, last value wins. -/

def upsertRepo (acc : List Repo) (r : Repo) : List Repo :=
  if acc.any (fun x => x.full_name == r.full_name) then
    acc.map (fun x => if x.full_name == r.full_name then r else x)
  else
    acc ++ [r]

def dedupByFullName (l : List Repo) : List Repo :=
  l.foldl upsertRepo []

def get_organization_repositories
    (orgRes : Except ApiError (List Repo))
    (userRes : Except ApiError (List Repo)) :
    List Repo × List LogLevel :=
  match orgRes, userRes with
  | .error .other, _ => ([], [.error])
  | .error (.github _), .error _ => ([], [.warning, .error])
  | .error (.github _), .ok us =>
      (dedupByFullName (us.filter (fun r => r.admin)), [.warning, .info, .info])
  | .ok _, .error _ => ([], [.info, .error])
  | .ok os, .ok us =>
      (dedupByFullName (os ++ us.filter (fun r => r.admin)), [.info, .info, .info])

/-! ### get_default_branch (script.py lines 63-69) -/

def get_default_branch (res : Except Unit String) : String :=
  match res with
  | .ok b => b
  | .error _ => "main"

/-! ### has_workflow_directory (script.py lines 71-97)

Lists the repository root and looks for an immediate child of type `dir` whose
path equals `WORKFLOW_PATH.strip('/')`.  A `GithubException` with status 404 is
logged at info level; every other exception is logged as an error; all failure
paths return `False`. -/

def has_workflow_directory (rootListing : Except ApiError (List ContentEntry)) :
    Bool × List LogLevel :=
  match rootListing with
  | .ok contents =>
      if contents.any (fun c => c.type == "dir" && c.path == WORKFLOW_PATH_STRIPPED)
      then (true, [.info])
      else (false, [.info])
  | .error (.github s) =>
      if s = 404 then (false, [.info]) else (false, [.error])
  | .error .other => (false, [.error])

/-! ### get_workflow_files (script.py lines 100-123)

Lists `WORKFLOW_PATH` and keeps entries of type `file` whose path ends in
`.yml` or `.yaml`.  A 404 `GithubException` is logged at info level and yields
`[]`; any other exception is logged as an error and yields `[]`. -/

def get_workflow_files (listing : Except ApiError (List ContentEntry)) :
    List ContentEntry × List LogLevel :=
  match listing with
  | .ok contents =>
      let files := contents.filter (fun c =>
        c.type == "file" &&
          (List.isSuffixOf ".yml".data c.path.data ||
           List.isSuffixOf ".yaml".data c.path.data))
      (files, files.map (fun _ => LogLevel.info))
  | .error (.github s) =>
      if s = 404 then ([], [.info]) else ([], [.error])
  | .error .other => ([], [.error])

/-! ### update_workflow_file (script.py lines 125-154)

Decodes the file, tests `SEARCH_STRING in content`, and on a match performs the
whole-string replace and one `update_file` call (recorded as an action whether
or not the platform accepts it; `writeOk` tells whether the call succeeds).
A failing write is logged as an error and the function returns `False`; there
is no retry.  Without a match nothing is written and `False` is returned.
`CREATE_PR` is never consulted: no code path creates a ref or a pull request. -/

structure UpdateOutcome where
  returned : Bool
  actions : List Action
  logs : List LogLevel
deriving DecidableEq

def update_workflow_file (wf : ContentEntry) (branch : String) (writeOk : Bool) :
    UpdateOutcome :=
  match wf.decodedContent with
  | none => { returned := false, actions := [], logs := [.error] }
  | some content =>
    if containsSub SEARCH_STRING.data content then
      let updated := replaceAllAux SEARCH_STRING.data REPLACE_STRING.data content
      let call := Action.updateFile wf.path commitMessage updated wf.sha branch
      if writeOk then
        { returned := true, actions := [call], logs := [.info, .info] }
      else
        { returned := false, actions := [call], logs := [.info, .error] }
    else
      { returned := false, actions := [], logs := [.info] }

/-! ### main (script.py lines 156-213)

Per-repository inputs are gathered in `RepoEnv`; `writeOk` tells, per file
path, whether the `update_file` call succeeds.  `processRepo` is one iteration
body of the repository loop (every callee catches its own exceptions, so the
body never raises); `mainStep` folds the run statistics exactly as the loop
does: `repos_with_workflows` is incremented when `has_workflow_directory`
returns `True`, `repos_updated` when any file update returned `True`.
The statistics live in local variables and are only logged at exit. -/

structure RepoEnv where
  defaultBranchRes : Except Unit String
  rootListing : Except ApiError (List ContentEntry)
  pathListing : Except ApiError (List ContentEntry)
  writeOk : String → Bool

def processRepo (env : RepoEnv) : Bool × Bool × List Action :=
  let branch := get_default_branch env.defaultBranchRes
  if (has_workflow_directory env.rootListing).1 then
    let files := (get_workflow_files env.pathListing).1
    let outs := files.map (fun f => update_workflow_file f branch (env.writeOk f.path))
    (true, outs.any (fun o => o.returned), (outs.map (fun o => o.actions)).flatten)
  else
    (false, false, [])

structure Stats where
  total : Nat
  withWorkflows : Nat
  updated : Nat
deriving DecidableEq

def mainStep (s : Stats) (env : RepoEnv) : Stats :=
  let r := processRepo env
  { total := s.total,
    withWorkflows := s.withWorkflows + (if r.1 then 1 else 0),
    updated := s.updated + (if r.2.1 then 1 else 0) }

def initStats (envs : List RepoEnv) : Stats :=
  ⟨envs.length, 0, 0⟩

/-- The statistics after the first `k` iterations of the repository loop
(`k = envs.length` is the state printed in the final summary). -/
def statsAfter (envs : List RepoEnv) (k : Nat) : Stats :=
  (envs.take k).foldl mainStep (initStats envs)

/-- Every mutating API call the whole run performs. -/
def mainActions (envs : List RepoEnv) : List Action :=
  (envs.map (fun e => (processRepo e).2.2)).flatten

/-- `True` when the repository root listing (if it succeeded) only has
immediate children whose paths are single segments, i.e. contain no `/` —
which is what the platform returns for a root listing. -/
def rootSingleSeg (env : RepoEnv) : Bool :=
  match env.rootListing with
  | .ok l => l.all (fun e => !(decide (('/' : Char) ∈ e.path.data)))
  | .error _ => true

/-! ### Concrete sample inputs used by witnesses -/

def sampleMatchFile : ContentEntry :=
  ⟨"file", ".github/workflows/deploy.yml", "abc123",
    some ("uses: " ++ SEARCH_STRING).data⟩

def sampleCleanFile : ContentEntry :=
  ⟨"file", ".github/workflows/deploy.yml", "abc123", some "name: CI".data⟩

def sampleEnv404 : RepoEnv :=
  ⟨.ok "main", .error (.github 404), .error (.github 404), fun _ => true⟩

def sampleRepoA : Repo := ⟨"lahteeph/app", true⟩

def sampleRepoB : Repo := ⟨"lahteeph/infra", true⟩

def sampleRepoC : Repo := ⟨"lahteeph/app", false⟩

/-! ## Theorems -/

/-! ### Equation lemmas for `replaceAllAux` -/

theorem replaceAllAux_nil (pat rep : List Char) : replaceAllAux pat rep [] = [] := by
  simp [replaceAllAux]

theorem replaceAllAux_cons_pos (pat rep : List Char) (c : Char) (rest : List Char)
    (h : pat.isPrefixOf (c :: rest) = true) :
    replaceAllAux pat rep (c :: rest) =
      rep ++ replaceAllAux pat rep (rest.drop (pat.length - 1)) := by
  rw [replaceAllAux]
  simp [h]

theorem replaceAllAux_cons_neg (pat rep : List Char) (c : Char) (rest : List Char)
    (h : pat.isPrefixOf (c :: rest) = false) :
    replaceAllAux pat rep (c :: rest) = c :: replaceAllAux pat rep rest := by
  rw [replaceAllAux]
  simp [h]

/-! ### Structural lemmas about substring occurrence -/

theorem isInfix_cons_cases {α : Type} {w : List α} {c : α} {rest : List α}
    (h : w <:+: c :: rest) : w <+: c :: rest ∨ w <:+: rest := by
  obtain ⟨u, v, huv⟩ := h
  cases u with
  | nil => exact Or.inl ⟨v, by simpa using huv⟩
  | cons x u =>
    simp only [List.cons_append] at huv
    injection huv with h1 h2
    exact Or.inr ⟨u, v, h2⟩

theorem prefAppendCases {α : Type} (A : List α) :
    ∀ (B w : List α), w <+: A ++ B →
      w <+: A ∨ ∃ w2, w = A ++ w2 ∧ w2 <+: B := by
  induction A with
  | nil =>
    intro B w h
    exact Or.inr ⟨w, rfl, by simpa using h⟩
  | cons a A ih =>
    intro B w h
    cases w with
    | nil => exact Or.inl ⟨a :: A, rfl⟩
    | cons x w =>
      obtain ⟨t, ht⟩ := h
      simp only [List.cons_append] at ht
      injection ht with h1 h2
      subst h1
      rcases ih B w ⟨t, h2⟩ with h3 | ⟨w2, rfl, h4⟩
      · obtain ⟨t2, ht2⟩ := h3
        exact Or.inl ⟨t2, by simp [List.cons_append, ht2]⟩
      · exact Or.inr ⟨w2, by simp, h4⟩

theorem shortPrefixOfAppend {α : Type} {A B w : List α}
    (h : w <+: A ++ B) (hlen : w.length ≤ A.length) : w <+: A := by
  rcases prefAppendCases A B w h with h1 | ⟨w2, rfl, h2⟩
  · exact h1
  · have hw2 : w2 = [] := by
      rw [List.length_append] at hlen
      have h0 : w2.length = 0 := by omega
      exact List.eq_nil_of_length_eq_zero h0
    subst hw2
    exact ⟨[], by simp⟩

theorem isInfix_append_cases {α : Type} (A : List α) :
    ∀ (B w : List α), w <:+: A ++ B →
      w <:+: A ∨ w <:+: B ∨
        ∃ w1 w2, w1 ++ w2 = w ∧ w1 ≠ [] ∧ w2 ≠ [] ∧ w1 <:+ A ∧ w2 <+: B := by
  induction A with
  | nil =>
    intro B w h
    exact Or.inr (Or.inl (by simpa using h))
  | cons a A ih =>
    intro B w h
    rcases isInfix_cons_cases (by simpa using h) with h1 | h2
    · rcases prefAppendCases (a :: A) B w (by simpa using h1) with h3 | ⟨w2, rfl, h4⟩
      · obtain ⟨t, ht⟩ := h3
        exact Or.inl ⟨[], t, by simpa using ht⟩
      · cases w2 with
        | nil => exact Or.inl ⟨[], [], by simp⟩
        | cons b w2 =>
          exact Or.inr (Or.inr
            ⟨a :: A, b :: w2, rfl, by simp, by simp, ⟨[], rfl⟩, h4⟩)
    · rcases ih B w h2 with h3 | h4 | ⟨w1, w2, hw, h1ne, h2ne, hsuf, hpref⟩
      · obtain ⟨u, v, huv⟩ := h3
        exact Or.inl ⟨a :: u, v, by simp [List.cons_append, huv]⟩
      · exact Or.inr (Or.inl h4)
      · obtain ⟨t, ht⟩ := hsuf
        exact Or.inr (Or.inr
          ⟨w1, w2, hw, h1ne, h2ne, ⟨a :: t, by simp [List.cons_append, ht]⟩, hpref⟩)

theorem drop_not_pref_nil {S : List Char} {j : Nat} (hj : j < S.length) :
    ¬ (S.drop j <+: ([] : List Char)) := by
  intro h
  obtain ⟨t, ht⟩ := h
  have h1 := List.append_eq_nil.mp ht
  have h2 := congrArg List.length h1.1
  simp [List.length_drop] at h2
  omega

/-- If a piece `S.drop j` of the search literal begins the replaced output,
it already began the input: the replacement literal never manufactures a
dangling incomplete match of the search literal (hypothesis `hG3`). -/
theorem replaceAllAux_reflects (S R : List Char)
    (hlen : S.length ≤ R.length)
    (hG3 : ∀ j, j < S.length → ¬ (S.drop j <+: R)) :
    ∀ n s, s.length ≤ n → ∀ j, j < S.length →
      S.drop j <+: replaceAllAux S R s → S.drop j <+: s := by
  intro n
  induction n with
  | zero =>
    intro s hs j hj hp
    have hnil : s = [] := List.eq_nil_of_length_eq_zero (Nat.le_zero.mp hs)
    subst hnil
    rw [replaceAllAux_nil] at hp
    exact absurd hp (drop_not_pref_nil hj)
  | succ n ih =>
    intro s hs j hj hp
    cases s with
    | nil =>
      rw [replaceAllAux_nil] at hp
      exact absurd hp (drop_not_pref_nil hj)
    | cons c rest =>
      have hrn : rest.length ≤ n := by
        simp only [List.length_cons] at hs
        omega
      by_cases hpre : S.isPrefixOf (c :: rest) = true
      · rw [replaceAllAux_cons_pos S R c rest hpre] at hp
        have hlenw : (S.drop j).length ≤ R.length := by
          simp only [List.length_drop]
          omega
        exact absurd (shortPrefixOfAppend hp hlenw) (hG3 j hj)
      · rw [Bool.not_eq_true] at hpre
        rw [replaceAllAux_cons_neg S R c rest hpre] at hp
        have hSj : S.drop j = S[j] :: S.drop (j + 1) := List.drop_eq_getElem_cons hj
        rw [hSj] at hp
        obtain ⟨t, ht⟩ := hp
        simp only [List.cons_append] at ht
        injection ht with h1 h2
        have hrest : S.drop (j + 1) <+: rest := by
          by_cases hj1 : j + 1 < S.length
          · exact ih rest hrn (j + 1) hj1 ⟨t, h2⟩
          · have hd : S.drop (j + 1) = [] := List.drop_eq_nil_of_le (by omega)
            rw [hd]
            exact ⟨rest, rfl⟩
        obtain ⟨t2, ht2⟩ := hrest
        rw [hSj, h1]
        exact ⟨t2, by simp [List.cons_append, ht2]⟩

/-- The central property of Python's `str.replace` for this search/replace
pair: after `replaceAllAux S R s` the search literal `S` no longer occurs
anywhere.  The hypotheses are the relevant combinatorial facts about the two
concrete literals: `S` is at most as long as `R`, no piece `S.drop j` of `S`
begins `R` (in particular `S` has no self-overlap through `R`), `S` does not
occur inside `R`, and no nonempty suffix of `R` begins `S`. -/
theorem replaceAllAux_no_occurrence (S R : List Char)
    (hne : S ≠ [])
    (hlen : S.length ≤ R.length)
    (hG3 : ∀ j, j < S.length → ¬ (S.drop j <+: R))
    (hinR : ¬ S <:+: R)
    (hsufR : ∀ k, k < R.length → ¬ (R.drop k <+: S)) :
    ∀ n s, s.length ≤ n → ¬ S <:+: replaceAllAux S R s := by
  intro n
  induction n with
  | zero =>
    intro s hs h
    have hnil : s = [] := List.eq_nil_of_length_eq_zero (Nat.le_zero.mp hs)
    subst hnil
    rw [replaceAllAux_nil] at h
    obtain ⟨u, v, huv⟩ := h
    have h1 := List.append_eq_nil.mp huv
    exact hne (List.append_eq_nil.mp h1.1).2
  | succ n ih =>
    intro s hs h
    cases s with
    | nil =>
      rw [replaceAllAux_nil] at h
      obtain ⟨u, v, huv⟩ := h
      have h1 := List.append_eq_nil.mp huv
      exact hne (List.append_eq_nil.mp h1.1).2
    | cons c rest =>
      have hrn : rest.length ≤ n := by
        simp only [List.length_cons] at hs
        omega
      by_cases hpre : S.isPrefixOf (c :: rest) = true
      · rw [replaceAllAux_cons_pos S R c rest hpre] at h
        rcases isInfix_append_cases R _ S h with h1 | h2 |
          ⟨w1, w2, hw, h1ne, h2ne, h1suf, h2pref⟩
        · exact hinR h1
        · have hdl : (rest.drop (S.length - 1)).length ≤ n := by
            simp only [List.length_drop]
            omega
          exact ih (rest.drop (S.length - 1)) hdl h2
        · obtain ⟨t, ht⟩ := h1suf
          have hk : t.length < R.length := by
            have hlth := congrArg List.length ht
            rw [List.length_append] at hlth
            cases w1 with
            | nil => exact absurd rfl h1ne
            | cons a w1 =>
              simp only [List.length_cons] at hlth
              omega
          have hdropt : R.drop t.length = w1 := by
            rw [← ht, List.drop_left]
          exact hsufR t.length hk (hdropt ▸ ⟨w2, hw⟩)
      · have hpre2 : S.isPrefixOf (c :: rest) = false := by
          rw [← Bool.not_eq_true]
          exact hpre
        rw [replaceAllAux_cons_neg S R c rest hpre2] at h
        rcases isInfix_cons_cases h with h1 | h2
        · rw [← replaceAllAux_cons_neg S R c rest hpre2] at h1
          have h0 : S.drop 0 <+: replaceAllAux S R (c :: rest) := by
            simpa using h1
          have hj0 : 0 < S.length := by
            cases S with
            | nil => exact absurd rfl hne
            | cons a l => simp
          have hback := replaceAllAux_reflects S R hlen hG3 (n + 1) (c :: rest) hs 0 hj0 h0
          rw [List.drop_zero] at hback
          have htrue : S.isPrefixOf (c :: rest) = true :=
            List.isPrefixOf_iff_prefix.mpr hback
          rw [hpre2] at htrue
          exact Bool.noConfusion htrue
        · exact ih rest hrn h2

/-- `containsSub` decides substring occurrence. -/
theorem containsSub_iff (pat : List Char) :
    ∀ s, containsSub pat s = true ↔ pat <:+: s := by
  intro s
  induction s with
  | nil =>
    constructor
    · intro h
      cases pat with
      | nil => exact ⟨[], [], rfl⟩
      | cons a l => simp [containsSub, List.isEmpty] at h
    · rintro ⟨u, v, huv⟩
      have h1 := List.append_eq_nil.mp huv
      have h2 := List.append_eq_nil.mp h1.1
      rw [h2.2]
      simp [containsSub, List.isEmpty]
  | cons c rest ih =>
    simp only [containsSub, Bool.or_eq_true, ih]
    constructor
    · rintro (h | h)
      · obtain ⟨t, ht⟩ := List.isPrefixOf_iff_prefix.mp h
        exact ⟨[], t, by simpa using ht⟩
      · obtain ⟨u, v, huv⟩ := h
        exact ⟨c :: u, v, by simp [List.cons_append, huv]⟩
    · intro h
      rcases isInfix_cons_cases h with h1 | h2
      · exact Or.inl ( List.isPrefixOf_iff_prefix.mpr h1)
      · exact Or.inr h2

/-- When the search literal does not occur, `str.replace` is the identity. -/
theorem replaceAllAux_id_of_no_match (S R : List Char) :
    ∀ s, containsSub S s = false → replaceAllAux S R s = s := by
  intro s
  induction s with
  | nil => intro _; exact replaceAllAux_nil S R
  | cons c rest ih =>
    intro h
    rw [containsSub] at h
    rcases Bool.or_eq_false_iff.mp h with ⟨h1, h2⟩
    rw [replaceAllAux_cons_neg S R c rest h1, ih h2]

/-- Instantiation at the script's literals: a replaced text never contains the
search literal again. -/
theorem search_replace_no_match (s : List Char) :
    containsSub SEARCH_STRING.data
      (replaceAllAux SEARCH_STRING.data REPLACE_STRING.data s) = false := by
  have h := replaceAllAux_no_occurrence SEARCH_STRING.data REPLACE_STRING.data
    (by decide) (by decide) (by decide) (by decide) (by decide)
    s.length s le_rfl
  cases hb : containsSub SEARCH_STRING.data
      (replaceAllAux SEARCH_STRING.data REPLACE_STRING.data s) with
  | false => rfl
  | true => exact absurd ((containsSub_iff _ _).mp hb) h

/-- Evaluation of `update_workflow_file` on a decoded content with a match. -/
theorem update_match_eval (wf : ContentEntry) (branch : String) (writeOk : Bool)
    (content : List Char)
    (hdec : wf.decodedContent = some content)
    (hc : containsSub SEARCH_STRING.data content = true) :
    update_workflow_file wf branch writeOk =
      if writeOk then
        ⟨true,
          [Action.updateFile wf.path commitMessage
            (replaceAllAux SEARCH_STRING.data REPLACE_STRING.data content)
            wf.sha branch],
          [.info, .info]⟩
      else
        ⟨false,
          [Action.updateFile wf.path commitMessage
            (replaceAllAux SEARCH_STRING.data REPLACE_STRING.data content)
            wf.sha branch],
          [.info, .error]⟩ := by
  rw [update_workflow_file, hdec]
  simp [hc]

/-- Evaluation of `update_workflow_file` on a decoded content without a match. -/
theorem update_no_match_eval (wf : ContentEntry) (branch : String) (writeOk : Bool)
    (content : List Char)
    (hdec : wf.decodedContent = some content)
    (hc : containsSub SEARCH_STRING.data content = false) :
    update_workflow_file wf branch writeOk = ⟨false, [], [.info]⟩ := by
  rw [update_workflow_file, hdec]
  simp [hc]

/-- C1: for every decoded file content containing the search literal,
`update_workflow_file` writes exactly the whole-string replacement of the
search literal by the replacement literal, and the updated content contains no
occurrence of the search literal. -/
theorem update_workflow_file_replaces_all
    (wf : ContentEntry) (branch : String) (writeOk : Bool) (content : List Char)
    (hdec : wf.decodedContent = some content)
    (hc : containsSub SEARCH_STRING.data content = true) :
    (update_workflow_file wf branch writeOk).actions =
      [Action.updateFile wf.path commitMessage
        (replaceAllAux SEARCH_STRING.data REPLACE_STRING.data content)
        wf.sha branch] ∧
    containsSub SEARCH_STRING.data
      (replaceAllAux SEARCH_STRING.data REPLACE_STRING.data content) = false := by
  refine ⟨?_, search_replace_no_match content⟩
  rw [update_match_eval wf branch writeOk content hdec hc]
  cases writeOk <;> rfl

/-- C1 witness at a concrete content. -/
theorem update_workflow_file_replaces_all_witness :
    containsSub SEARCH_STRING.data ("uses: " ++ SEARCH_STRING).data = true ∧
    (update_workflow_file sampleMatchFile "main" true).actions =
      [Action.updateFile sampleMatchFile.path commitMessage
        (replaceAllAux SEARCH_STRING.data REPLACE_STRING.data
          ("uses: " ++ SEARCH_STRING).data)
        sampleMatchFile.sha "main"] ∧
    containsSub SEARCH_STRING.data
      (replaceAllAux SEARCH_STRING.data REPLACE_STRING.data
        ("uses: " ++ SEARCH_STRING).data) = false := by
  refine ⟨by decide, ?_⟩
  exact update_workflow_file_replaces_all sampleMatchFile "main" true
    ("uses: " ++ SEARCH_STRING).data rfl (by decide)

/-- C2: for every decoded file content not containing the search literal,
`update_workflow_file` returns `False`, makes no write call, and the
replacement (had it been applied) would not have changed the content. -/
theorem update_workflow_file_no_match_frame
    (wf : ContentEntry) (branch : String) (writeOk : Bool) (content : List Char)
    (hdec : wf.decodedContent = some content)
    (hc : containsSub SEARCH_STRING.data content = false) :
    (update_workflow_file wf branch writeOk).returned = false ∧
    (update_workflow_file wf branch writeOk).actions = [] ∧
    replaceAllAux SEARCH_STRING.data REPLACE_STRING.data content = content := by
  rw [update_no_match_eval wf branch writeOk content hdec hc]
  exact ⟨rfl, rfl, replaceAllAux_id_of_no_match _ _ content hc⟩

/-- C2 witness at a concrete content. -/
theorem update_workflow_file_no_match_frame_witness :
    containsSub SEARCH_STRING.data "name: CI".data = false ∧
    (update_workflow_file sampleCleanFile "main" true).returned = false ∧
    (update_workflow_file sampleCleanFile "main" true).actions = [] := by
  refine ⟨by decide, ?_, ?_⟩
  · exact (update_workflow_file_no_match_frame sampleCleanFile "main" true
      "name: CI".data rfl (by decide)).1
  · exact (update_workflow_file_no_match_frame sampleCleanFile "main" true
      "name: CI".data rfl (by decide)).2.1

/-- C3: the replacement is idempotent — a second pass finds zero occurrences of
the search literal in the already-updated content and therefore changes
nothing. -/
theorem replace_idempotent (content : List Char) :
    replaceAllAux SEARCH_STRING.data REPLACE_STRING.data
        (replaceAllAux SEARCH_STRING.data REPLACE_STRING.data content) =
      replaceAllAux SEARCH_STRING.data REPLACE_STRING.data content ∧
    containsSub SEARCH_STRING.data
        (replaceAllAux SEARCH_STRING.data REPLACE_STRING.data content) = false :=
  ⟨replaceAllAux_id_of_no_match _ _ _ (search_replace_no_match content),
   search_replace_no_match content⟩

/-- C4 (code bug): `CREATE_PR` is declared (script.py line 16) but never read;
`update_workflow_file` always commits directly to the branch it is given — the
default branch, as passed by `main` — via `update_file`, and no code path ever
creates a ref or opens a pull request.  Evaluated at a concrete matching file:
the whole action trace is a single direct `updateFile` on `"main"`. -/
theorem update_writes_direct_despite_pr_flag :
    CREATE_PR = false ∧
    (update_workflow_file sampleMatchFile "main" true).returned = true ∧
    (update_workflow_file sampleMatchFile "main" true).actions =
      [Action.updateFile ".github/workflows/deploy.yml" commitMessage
        (replaceAllAux SEARCH_STRING.data REPLACE_STRING.data
          ("uses: " ++ SEARCH_STRING).data)
        "abc123" "main"] := by
  refine ⟨rfl, ?_, ?_⟩ <;> rfl

/-- C8: when the match exists but the `update_file` call fails (stale
precondition hash, permissions, ...), the failure is logged as an error,
`update_workflow_file` returns `False`, and exactly one write call was made —
there is no retry. -/
theorem update_write_failure_no_retry
    (wf : ContentEntry) (branch : String) (content : List Char)
    (hdec : wf.decodedContent = some content)
    (hc : containsSub SEARCH_STRING.data content = true) :
    (update_workflow_file wf branch false).returned = false ∧
    LogLevel.error ∈ (update_workflow_file wf branch false).logs ∧
    (update_workflow_file wf branch false).actions.length = 1 := by
  rw [update_match_eval wf branch false content hdec hc]
  exact ⟨rfl, by simp, rfl⟩

/-- C8 witness at a concrete content. -/
theorem update_write_failure_no_retry_witness :
    (update_workflow_file sampleMatchFile "main" false).returned = false ∧
    LogLevel.error ∈ (update_workflow_file sampleMatchFile "main" false).logs ∧
    (update_workflow_file sampleMatchFile "main" false).actions.length = 1 :=
  update_write_failure_no_retry sampleMatchFile "main"
    ("uses: " ++ SEARCH_STRING).data rfl (by decide)

/-- C5: a 404 `GithubException` while listing the discovery path yields zero
workflow files and no error-level log; any non-404 error also yields an empty
result but is logged as an error. -/
theorem get_workflow_files_error_handling (e : ApiError) :
    (get_workflow_files (.error e)).1 = [] ∧
    (e = .github 404 → LogLevel.error ∉ (get_workflow_files (.error e)).2) ∧
    (e ≠ .github 404 → LogLevel.error ∈ (get_workflow_files (.error e)).2) := by
  cases e with
  | github s =>
    by_cases h4 : s = 404
    · subst h4
      refine ⟨rfl, fun _ => by simp [get_workflow_files], fun h => absurd rfl h⟩
    · refine ⟨?_, ?_, ?_⟩
      · simp [get_workflow_files, h4]
      · intro h
        exact absurd (by injection h) h4
      · intro _
        simp [get_workflow_files, h4]
  | other =>
    refine ⟨rfl, ?_, ?_⟩
    · intro h
      exact ApiError.noConfusion h
    · intro _
      simp [get_workflow_files]

/-- C5 witness: concrete 404 and non-404 errors. -/
theorem get_workflow_files_error_handling_witness :
    (get_workflow_files (.error (.github 404))).1 = [] ∧
    LogLevel.error ∉ (get_workflow_files (.error (.github 404))).2 ∧
    LogLevel.error ∈ (get_workflow_files (.error (.github 500))).2 :=
  ⟨(get_workflow_files_error_handling (.github 404)).1,
   (get_workflow_files_error_handling (.github 404)).2.1 rfl,
   (get_workflow_files_error_handling (.github 500)).2.2 (by decide)⟩

/-- C6 counterexample: an access token that is present in the environment but
empty is falsy in Python, so `if not GITHUB_TOKEN` raises even though the
variable is present — the claim "with the token present, no such error is
raised" fails at this input. -/
theorem startup_empty_token_raises :
    script_startup (some "") =
      Except.error "GITHUB_TOKEN is not set in the environment." := rfl

/-- C6 (amended): an absent token makes startup fail fatally before any
network call; a present and non-empty token passes the startup check. -/
theorem startup_token_check (env : Option String) :
    (env = none →
      script_startup env =
        Except.error "GITHUB_TOKEN is not set in the environment.") ∧
    (∀ t, env = some t → t ≠ "" → script_startup env = Except.ok t) := by
  constructor
  · rintro rfl
    rfl
  · rintro t rfl ht
    simp [script_startup, ht]

/-- C6 witness: absent token errors, concrete non-empty token passes. -/
theorem startup_token_check_witness :
    script_startup none =
      Except.error "GITHUB_TOKEN is not set in the environment." ∧
    script_startup (some "ghp-token") = Except.ok "ghp-token" :=
  ⟨(startup_token_check none).1 rfl,
   (startup_token_check (some "ghp-token")).2 "ghp-token" rfl (by decide)⟩

/-! ### Deduplication by full name (dict-comprehension semantics) -/

theorem upsertRepo_keys (acc : List Repo) (r : Repo) :
    (upsertRepo acc r).map Repo.full_name =
      if acc.any (fun x => x.full_name == r.full_name) then
        acc.map Repo.full_name
      else
        acc.map Repo.full_name ++ [r.full_name] := by
  rw [upsertRepo]
  by_cases h : acc.any (fun x => x.full_name == r.full_name) = true
  · rw [if_pos h, if_pos h, List.map_map]
    apply List.map_congr_left
    intro x _
    simp only [Function.comp_apply]
    by_cases hx2 : (x.full_name == r.full_name) = true
    · rw [if_pos hx2]
      exact (eq_of_beq hx2).symm
    · rw [if_neg hx2]
  · rw [if_neg h, if_neg h, List.map_append]
    rfl

theorem upsertRepo_nodup (acc : List Repo) (r : Repo)
    (h : (acc.map Repo.full_name).Nodup) :
    ((upsertRepo acc r).map Repo.full_name).Nodup := by
  rw [upsertRepo_keys]
  by_cases hc : acc.any (fun x => x.full_name == r.full_name) = true
  · rw [if_pos hc]
    exact h
  · rw [if_neg hc]
    have hnot : r.full_name ∉ acc.map Repo.full_name := by
      intro hmem
      obtain ⟨x, hx, hfx⟩ := List.mem_map.mp hmem
      exact hc (List.any_eq_true.mpr ⟨x, hx, by simp [hfx]⟩)
    exact (List.perm_append_singleton _ _).nodup_iff.mpr
      (List.nodup_cons.mpr ⟨hnot, h⟩)

theorem dedupByFullName_nodup_aux :
    ∀ (l acc : List Repo), (acc.map Repo.full_name).Nodup →
      ((l.foldl upsertRepo acc).map Repo.full_name).Nodup := by
  intro l
  induction l with
  | nil => intro acc h; simpa using h
  | cons r l ih =>
    intro acc h
    rw [List.foldl_cons]
    exact ih _ (upsertRepo_nodup acc r h)

theorem dedupByFullName_nodup (l : List Repo) :
    ((dedupByFullName l).map Repo.full_name).Nodup := by
  rw [dedupByFullName]
  exact dedupByFullName_nodup_aux l [] (by simp)

/-- C7: repository enumeration combines the organization's repositories (when
accessible) with the user's admin-filtered repositories, deduplicated by full
name (the result never lists a full name twice); an organization
`GithubException` contributes nothing and is logged as a warning; any failure
of the user listing — or a non-`GithubException` failure of the organization
lookup — yields an empty list instead of aborting. -/
theorem get_organization_repositories_spec
    (orgRes userRes : Except ApiError (List Repo)) :
    ((get_organization_repositories orgRes userRes).1.map Repo.full_name).Nodup ∧
    (∀ os us, orgRes = .ok os → userRes = .ok us →
      (get_organization_repositories orgRes userRes).1 =
        dedupByFullName (os ++ us.filter (fun r => r.admin))) ∧
    (∀ s us, orgRes = .error (.github s) → userRes = .ok us →
      (get_organization_repositories orgRes userRes).1 =
        dedupByFullName (us.filter (fun r => r.admin)) ∧
      LogLevel.warning ∈ (get_organization_repositories orgRes userRes).2) ∧
    (∀ e, userRes = .error e →
      (get_organization_repositories orgRes userRes).1 = []) ∧
    (orgRes = .error .other →
      (get_organization_repositories orgRes userRes).1 = []) := by
  refine ⟨?_, ?_, ?_, ?_, ?_⟩
  · cases orgRes with
    | error e =>
      cases e with
      | github s =>
        cases userRes with
        | error e2 => simp [get_organization_repositories]
        | ok us => exact dedupByFullName_nodup _
      | other => simp [get_organization_repositories]
    | ok os =>
      cases userRes with
      | error e2 => simp [get_organization_repositories]
      | ok us => exact dedupByFullName_nodup _
  · rintro os us rfl rfl
    rfl
  · rintro s us rfl rfl
    exact ⟨rfl, by simp [get_organization_repositories]⟩
  · rintro e rfl
    cases orgRes with
    | error e2 => cases e2 <;> rfl
    | ok os => rfl
  · rintro rfl
    cases userRes <;> rfl

/-- C7 witness: concrete org/user listings with a duplicated full name, and a
concrete overall failure. -/
theorem get_organization_repositories_spec_witness :
    ((get_organization_repositories (.ok [sampleRepoA])
        (.ok [sampleRepoB, sampleRepoC])).1.map Repo.full_name).Nodup ∧
    (get_organization_repositories (.ok [sampleRepoA])
        (.ok [sampleRepoB, sampleRepoC])).1 =
      dedupByFullName ([sampleRepoA] ++
        [sampleRepoB, sampleRepoC].filter (fun r => r.admin)) ∧
    (get_organization_repositories (.error (.github 401)) (.error .other)).1 = [] :=
  ⟨(get_organization_repositories_spec _ _).1,
   (get_organization_repositories_spec _ _).2.1 _ _ rfl rfl,
   (get_organization_repositories_spec (.error (.github 401))
      (.error .other)).2.2.2.1 _ rfl⟩

/-! ### Unreachability of the update branch (C9) -/

theorem slash_mem_stripped : ('/' : Char) ∈ WORKFLOW_PATH_STRIPPED.data := by
  decide

theorem has_wf_false_of_single_seg (contents : List ContentEntry)
    (h : ∀ e ∈ contents, ('/' : Char) ∉ e.path.data) :
    (has_workflow_directory (.ok contents)).1 = false := by
  have hany : contents.any
      (fun c => c.type == "dir" && c.path == WORKFLOW_PATH_STRIPPED) = false := by
    rw [List.any_eq_false]
    intro c hc
    simp only [Bool.and_eq_true, beq_iff_eq, not_and]
    intro _ hpath
    exact absurd (hpath.symm ▸ slash_mem_stripped) (h c hc)
  simp [has_workflow_directory, hany]

theorem processRepo_no_dir (env : RepoEnv) (h : rootSingleSeg env = true) :
    processRepo env = (false, false, []) := by
  have hfalse : (has_workflow_directory env.rootListing).1 = false := by
    cases henv : env.rootListing with
    | ok l =>
      rw [rootSingleSeg, henv] at h
      simp only [List.all_eq_true, Bool.not_eq_true', decide_eq_false_iff_not] at h
      exact has_wf_false_of_single_seg l h
    | error e =>
      cases e with
      | github s =>
        by_cases h4 : s = 404 <;> simp [has_workflow_directory, h4]
      | other => rfl
  simp [processRepo, hfalse]

theorem mainStep_no_dir (s : Stats) (env : RepoEnv)
    (h : rootSingleSeg env = true) : mainStep s env = s := by
  rw [mainStep, processRepo_no_dir env h]
  rfl

theorem foldl_mainStep_single_seg :
    ∀ (l : List RepoEnv) (s0 : Stats), (∀ env ∈ l, rootSingleSeg env = true) →
      l.foldl mainStep s0 = s0 := by
  intro l
  induction l with
  | nil => intro s0 _; rfl
  | cons e l ih =>
    intro s0 h
    rw [List.foldl_cons, mainStep_no_dir s0 e (h e (by simp))]
    exact ih s0 (fun env hm => h env (by simp [hm]))

theorem mainActions_single_seg :
    ∀ (l : List RepoEnv), (∀ env ∈ l, rootSingleSeg env = true) →
      mainActions l = [] := by
  intro l
  induction l with
  | nil => intro _; rfl
  | cons e l ih =>
    intro h
    rw [mainActions, List.map_cons, List.flatten_cons,
      processRepo_no_dir e (h e (by simp))]
    exact ih (fun env hm => h env (by simp [hm]))

/-- C9: `has_workflow_directory` compares the paths of the immediate children
of the repository root against `WORKFLOW_PATH.strip('/')`, which contains a
path separator; root children have single-segment paths, so the comparison can
never succeed, `has_workflow_directory` returns `False` for every repository,
and the update branch of `main` is unreachable: no repository is counted as
having workflows, none is counted as updated, and no write is performed. -/
theorem has_workflow_directory_unreachable :
    (∀ contents : List ContentEntry,
      (∀ e ∈ contents, ('/' : Char) ∉ e.path.data) →
      (has_workflow_directory (.ok contents)).1 = false) ∧
    (∀ envs : List RepoEnv, (∀ env ∈ envs, rootSingleSeg env = true) →
      (statsAfter envs envs.length).withWorkflows = 0 ∧
      (statsAfter envs envs.length).updated = 0 ∧
      mainActions envs = []) := by
  constructor
  · exact has_wf_false_of_single_seg
  · intro envs h
    have htake : envs.take envs.length = envs := List.take_length envs
    rw [statsAfter, htake, foldl_mainStep_single_seg envs (initStats envs) h]
    exact ⟨rfl, rfl, mainActions_single_seg envs h⟩

/-- C9 witness: a concrete root listing whose children are the actual
single-segment directory names of such a repository, and a concrete
one-repository run. -/
theorem has_workflow_directory_unreachable_witness :
    (has_workflow_directory (.ok
      [⟨"dir", "ansible_aws", "s1", none⟩,
       ⟨"file", "README.md", "s2", none⟩])).1 = false ∧
    (statsAfter [sampleEnv404] 1).withWorkflows = 0 ∧
    (statsAfter [sampleEnv404] 1).updated = 0 ∧
    mainActions [sampleEnv404] = [] := by
  refine ⟨has_workflow_directory_unreachable.1
      [⟨"dir", "ansible_aws", "s1", none⟩, ⟨"file", "README.md", "s2", none⟩]
      (by decide), ?_⟩
  exact has_workflow_directory_unreachable.2 [sampleEnv404] (by decide)

/-! ### Run statistics (C10) -/

theorem processRepo_updated_imp (env : RepoEnv) :
    (processRepo env).2.1 = true → (processRepo env).1 = true := by
  rw [processRepo]
  split <;> simp

theorem mainStep_shape (s : Stats) (env : RepoEnv) :
    ∃ a b : Nat, b ≤ a ∧ a ≤ 1 ∧
      (mainStep s env).total = s.total ∧
      (mainStep s env).withWorkflows = s.withWorkflows + a ∧
      (mainStep s env).updated = s.updated + b := by
  refine ⟨if (processRepo env).1 then 1 else 0,
    if (processRepo env).2.1 then 1 else 0, ?_, ?_, rfl, rfl, rfl⟩
  · by_cases h : (processRepo env).2.1 = true
    · rw [if_pos h, if_pos (processRepo_updated_imp env h)]
    · rw [if_neg h]
      exact Nat.zero_le _
  · by_cases h : (processRepo env).1 = true <;> simp [h]

theorem foldl_mainStep_facts :
    ∀ (l : List RepoEnv) (s0 : Stats),
      (l.foldl mainStep s0).total = s0.total ∧
      s0.withWorkflows ≤ (l.foldl mainStep s0).withWorkflows ∧
      s0.updated ≤ (l.foldl mainStep s0).updated ∧
      (l.foldl mainStep s0).withWorkflows ≤ s0.withWorkflows + l.length ∧
      (l.foldl mainStep s0).updated - s0.updated ≤
        (l.foldl mainStep s0).withWorkflows - s0.withWorkflows := by
  intro l
  induction l with
  | nil => intro s0; simp
  | cons e l ih =>
    intro s0
    rw [List.foldl_cons]
    obtain ⟨a, b, hba, ha1, ht, hw, hu⟩ := mainStep_shape s0 e
    obtain ⟨h1, h2, h3, h4, h5⟩ := ih (mainStep s0 e)
    rw [ht] at h1
    rw [hw] at h2 h4 h5
    rw [hu] at h3 h5
    simp only [List.length_cons]
    exact ⟨h1, by omega, by omega, by omega, by omega⟩

/-- C10: after any number `k` of iterations of the per-repository loop —
including at exit, `k = envs.length` — the run statistics satisfy
`repos_updated ≤ repos_with_workflows ≤ total_repos`, with `total_repos` the
length of the enumerated repository list, and both counters are monotone from
one iteration to the next.  (The counters are local variables of `main` and
are only written to the log at exit; the model has no persistence effect.) -/
theorem main_stats_invariant (envs : List RepoEnv) (k : Nat) :
    (statsAfter envs k).updated ≤ (statsAfter envs k).withWorkflows ∧
    (statsAfter envs k).withWorkflows ≤ (statsAfter envs k).total ∧
    (statsAfter envs k).total = envs.length ∧
    (statsAfter envs k).withWorkflows ≤ (statsAfter envs (k + 1)).withWorkflows ∧
    (statsAfter envs k).updated ≤ (statsAfter envs (k + 1)).updated := by
  obtain ⟨h1, h2, h3, h4, h5⟩ := foldl_mainStep_facts (envs.take k) (initStats envs)
  have hw0 : (initStats envs).withWorkflows = 0 := rfl
  have hu0 : (initStats envs).updated = 0 := rfl
  have ht0 : (initStats envs).total = envs.length := rfl
  have hlen : (envs.take k).length ≤ envs.length := by
    rw [List.length_take]
    omega
  have hsucc : envs.take (k + 1) = envs.take k ++ (envs[k]?).toList :=
    List.take_succ
  have hmono := foldl_mainStep_facts ((envs[k]?).toList)
    ((envs.take k).foldl mainStep (initStats envs))
  refine ⟨?_, ?_, ?_, ?_, ?_⟩
  · rw [statsAfter]
    omega
  · rw [statsAfter]
    omega
  · rw [statsAfter]
    omega
  · rw [statsAfter, statsAfter, hsucc, List.foldl_append]
    exact hmono.2.1
  · rw [statsAfter, statsAfter, hsucc, List.foldl_append]
    exact hmono.2.2.1

end Script
